import Mathlib

/-!
# Dice Roulette — verification of the round-resolution engine

Shallow embedding of `src/dice_roulette/src/main.rs`: the die roller
(`Dice::new`), the round resolver (`spawn_die` / `roll_dice`), the
evaluation logic of the turn pipeline, and the game session (`game_loop`).

Randomness is modelled by an explicit entropy stream `e : Nat → Nat`:
the i-th die thread spawned during a game draws `e i` and reduces it into
the requested range exactly as `rand`'s `gen_range(0..n)` does (a draw
reduced modulo the range size; an empty range panics).  Quantifying over
all entropy streams quantifies over all sequences of die values.

The concurrent pipeline of `game_loop` is sequentialised: all `GameUpdate`
sends and all hand requests are performed by the single evaluation thread,
in program order, and the hand thread resolves round N+1 only after
receiving the request the evaluation thread sends at the end of round N,
so the per-round emission order below is exactly the channel order of the
real program.  Die-roll delivery order within a round is immaterial (only
commutative sums are accumulated), so the rolls are collected in spawn
order.  Machine integers (`i8` sides, `i32` hand counts, `i64` totals) are
modelled as `Int`; the one place the source truncates — the
`clamp(0, i32::MAX as i64) as i32` cast in the evaluation thread — is kept
explicitly, which makes the cast lossless.  The game loop, which the
source runs until the evaluation thread breaks, is given explicit fuel;
`GameOutcome.running` records a game still in progress when fuel runs out.
-/

namespace DiceRoulette

/-- `enum GameUpdate { Message(String), Score(i64) }`. -/
inductive GameUpdate where
  | Message (text : String)
  | Score (value : Int)
deriving DecidableEq, Repr

/-- `struct Dice { value: i8 }`. -/
structure Dice where
  value : Int
deriving DecidableEq, Repr

/-- `struct DiceHand { number_of_dice: i32, number_of_sides: i8 }`. -/
structure DiceHand where
  number_of_dice : Int
  number_of_sides : Int
deriving DecidableEq, Repr

/-- `struct DiceRollTotal { even: i64, odd: i64 }`. -/
structure DiceRollTotal where
  even : Int
  odd : Int
deriving DecidableEq, Repr

/-- `DiceRollTotal::parity_difference`: `self.odd - self.even`. -/
def DiceRollTotal.parity_difference (t : DiceRollTotal) : Int :=
  t.odd - t.even

/-- `DiceRollTotal::sum`: `self.odd + self.even`. -/
def DiceRollTotal.sum (t : DiceRollTotal) : Int :=
  t.odd + t.even

/-- `rand::thread_rng().gen_range(0..n)`: panics (`none`) when the range
`0..n` is empty, i.e. `n ≤ 0`; otherwise a uniform draw in `[0, n)`,
modelled as an entropy draw reduced modulo `n`. -/
def gen_range_zero_to (n : Int) (entropy : Nat) : Option Int :=
  if n ≤ 0 then none else some ((entropy : Int) % n)

/-- `Dice::new(number_of_sides)`: a rolled die whose value is
`gen_range(0..number_of_sides) + 1`; `none` models the panic of an empty
range. -/
def Dice.new (number_of_sides : Int) (entropy : Nat) : Option Dice :=
  (gen_range_zero_to number_of_sides entropy).map (fun v => ⟨v + 1⟩)

/-- The entropy draws consumed by the die threads of one round: the i-th
of `n` spawned threads draws `e (start + i)`. -/
def dieEntropy (e : Nat → Nat) (start n : Nat) : List Nat :=
  (List.range n).map (fun i => e (start + i))

/-- `spawn_die`: `for _ in 0..hand.number_of_dice` (an empty range when the
count is `≤ 0`) spawns one thread per die; each rolls `Dice::new` and sends
the die.  A thread whose `Dice::new` panics sends nothing (`none`): the
panic stays inside the spawned thread, its sender is simply dropped. -/
def spawn_die (hand : DiceHand) (e : Nat → Nat) (start : Nat) : List (Option Dice) :=
  (dieEntropy e start hand.number_of_dice.toNat).map (Dice.new hand.number_of_sides)

/-- The collection loop of `roll_dice`: each received roll is added to the
even total when `roll % 2 == 0` (Rust `%` is truncated remainder, `tmod`),
and to the odd total otherwise. -/
def collect_rolls (rolls : List Dice) : DiceRollTotal :=
  rolls.foldl
    (fun t d =>
      if d.value.tmod 2 = 0 then ⟨t.even + d.value, t.odd⟩
      else ⟨t.even, t.odd + d.value⟩)
    ⟨0, 0⟩

/-- `roll_dice`: spawns the die threads and folds every roll that actually
arrives on the channel into the even/odd totals. -/
def roll_dice (hand : DiceHand) (e : Nat → Nat) (start : Nat) : DiceRollTotal :=
  collect_rolls ((spawn_die hand e start).reduceOption)

/-- The die values received by `roll_dice`'s collection loop. -/
def die_values (hand : DiceHand) (e : Nat → Nat) (start : Nat) : List Int :=
  ((spawn_die hand e start).reduceOption).map Dice.value

/-- The even-valued rolls of a round. -/
def even_values (vs : List Int) : List Int :=
  vs.filter (fun v => v.tmod 2 == 0)

/-- The odd-valued rolls of a round. -/
def odd_values (vs : List Int) : List Int :=
  vs.filter (fun v => !(v.tmod 2 == 0))

/-- `i32::MAX`. -/
def i32_max : Int := 2147483647

/-- The evaluation thread's match scrutinee:
`dice_totals.parity_difference().clamp(0, i32::MAX as i64) as i32`.
Rust's `clamp(lo, hi)` is `self.max(lo).min(hi)`; the result lies in
`[0, i32::MAX]`, so the `as i32` cast is lossless. -/
def next_hand_value (t : DiceRollTotal) : Int :=
  min (max t.parity_difference 0) i32_max

/-- The even/odd narration the evaluation thread sends after the score. -/
def even_odd_text (t : DiceRollTotal) : String :=
  "Rolled total scores of:\n\t" ++ toString t.even ++ " even\n\t"
    ++ toString t.odd ++ " odd\n\n"

/-- The terminal narration sent when the clamped parity difference is 0. -/
def game_over_text : String :=
  "The even score is greater than the odd total this round. "
    ++ "No more dice left in your hand!\n"

/-- The narration sent before requesting the next hand. -/
def next_hand_text (n : Int) : String :=
  "Rolling next hand of " ++ toString n ++ " dice...\n"

/-- A send performed by the evaluation thread: either a `GameUpdate` on
`tx_update` or a next-hand request on `tx_hand`. -/
inductive EvalAction where
  | update (u : GameUpdate)
  | requestHand (n : Int)
deriving DecidableEq, Repr

/-- The sends the evaluation thread performs for one received
`DiceRollTotal`, in program order: the score, then the even/odd narration,
then either the terminal narration (clamped difference 0, thread breaks)
or the next-hand narration followed by the next-hand request. -/
def round_actions (t : DiceRollTotal) : List EvalAction :=
  [.update (.Score t.sum), .update (.Message (even_odd_text t))]
    ++ (if next_hand_value t = 0
        then [.update (.Message game_over_text)]
        else [.update (.Message (next_hand_text (next_hand_value t))),
              .requestHand (next_hand_value t)])

/-- Outcome of running the game loop with a given amount of fuel:
either the final score returned once the update channel closes, or the
state (current hand size, entropy offset, score so far) of a game still
in progress when the fuel ran out. -/
inductive GameOutcome where
  | score (total : Int)
  | running (dice : Int) (start : Nat) (acc : Int)
deriving DecidableEq, Repr

/-- Whether the game is still in progress. -/
def GameOutcome.isRunning : GameOutcome → Bool
  | .score _ => false
  | .running _ _ _ => true

/-- One round at a time: the hand thread resolves the requested count, the
evaluation thread scores it (`tx_update.send(Score(sum))` accumulated by
the main thread) and either breaks (clamped parity difference 0) or
requests the clamped difference as the next hand. -/
def game_loop_aux (sides : Int) (e : Nat → Nat) :
    Nat → Int → Nat → Int → GameOutcome
  | 0, n, start, acc => .running n start acc
  | fuel + 1, n, start, acc =>
    let t := roll_dice ⟨n, sides⟩ e start
    let acc2 := acc + t.sum
    if next_hand_value t = 0 then .score acc2
    else game_loop_aux sides e fuel (next_hand_value t) (start + n.toNat) acc2

/-- `game_loop(starting_hand)`: seeds the hand channel with the starting
die count and tallies every `Score` update into `total_score`. -/
def game_loop (hand : DiceHand) (e : Nat → Nat) (fuel : Nat) : GameOutcome :=
  game_loop_aux hand.number_of_sides e fuel hand.number_of_dice 0 0

/-- The totals of the rounds resolved during a run: one entry per
`DiceRollTotal` the evaluation thread receives. -/
def game_rounds_aux (sides : Int) (e : Nat → Nat) :
    Nat → Int → Nat → List DiceRollTotal
  | 0, _, _ => []
  | fuel + 1, n, start =>
    let t := roll_dice ⟨n, sides⟩ e start
    if next_hand_value t = 0 then [t]
    else t :: game_rounds_aux sides e fuel (next_hand_value t) (start + n.toNat)

/-- The resolved-round totals of a whole game run. -/
def game_rounds (hand : DiceHand) (e : Nat → Nat) (fuel : Nat) : List DiceRollTotal :=
  game_rounds_aux hand.number_of_sides e fuel hand.number_of_dice 0

/-- The evaluation thread's sends, round by round, in emission order. -/
def game_actions_aux (sides : Int) (e : Nat → Nat) :
    Nat → Int → Nat → List (List EvalAction)
  | 0, _, _ => []
  | fuel + 1, n, start =>
    let t := roll_dice ⟨n, sides⟩ e start
    if next_hand_value t = 0 then [round_actions t]
    else round_actions t :: game_actions_aux sides e fuel (next_hand_value t) (start + n.toNat)

/-- The claim-level statement that a game from `hand` under entropy `e`
terminates with a final score of at least `bound`. -/
def terminates_with_at_least (hand : DiceHand) (e : Nat → Nat) (bound : Int) : Prop :=
  ∃ fuel s, game_loop hand e fuel = .score s ∧ bound ≤ s

/-- Whether an evaluation-thread send is a `Score` (score-delta) update. -/
def is_score_update : EvalAction → Bool
  | .update (.Score _) => true
  | _ => false

/-! ## Helper lemmas -/

/-- `gen_range(0..sides)` does not panic for `sides ≥ 1`, and `Dice::new`
then yields the draw reduced modulo `sides`, plus one. -/
lemma dice_new_eq {sides : Int} (h : 1 ≤ sides) (r : Nat) :
    Dice.new sides r = some ⟨(r : Int) % sides + 1⟩ := by
  simp only [Dice.new, gen_range_zero_to]
  rw [if_neg (by omega)]
  rfl

/-- The reduced draw plus one lies in `[1, sides]`. -/
lemma dice_value_mem {sides : Int} (h : 1 ≤ sides) (r : Nat) :
    1 ≤ (r : Int) % sides + 1 ∧ (r : Int) % sides + 1 ≤ sides := by
  have h1 := Int.emod_nonneg (r : Int) (by omega : sides ≠ 0)
  have h2 := Int.emod_lt_of_pos (r : Int) (by omega : 0 < sides)
  omega

lemma reduceOption_map_some {α β : Type} (l : List α) (f : α → β) :
    (l.map (fun a => some (f a))).reduceOption = l.map f := by
  induction l with
  | nil => rfl
  | cons a l ih => simp [List.reduceOption_cons_of_some, ih]

/-- With a valid side count every die thread sends its die, so the rolls
received are exactly the spawned rolls, in spawn order. -/
lemma reduceOption_spawn (hand : DiceHand) (h : 1 ≤ hand.number_of_sides)
    (e : Nat → Nat) (start : Nat) :
    (spawn_die hand e start).reduceOption
      = (dieEntropy e start hand.number_of_dice.toNat).map
          (fun (r : Nat) => ⟨(r : Int) % hand.number_of_sides + 1⟩) := by
  unfold spawn_die
  rw [show (dieEntropy e start hand.number_of_dice.toNat).map
        (Dice.new hand.number_of_sides)
      = (dieEntropy e start hand.number_of_dice.toNat).map
          (fun (r : Nat) => some (⟨(r : Int) % hand.number_of_sides + 1⟩ : Dice))
    from List.map_congr_left (fun r _ => dice_new_eq h r)]
  exact reduceOption_map_some _ _

/-- The collection fold of `roll_dice`, with a general accumulator: the
even field collects the even rolls, the odd field the odd rolls. -/
lemma collect_rolls_foldl (ds : List Dice) (t0 : DiceRollTotal) :
    ds.foldl
      (fun t d =>
        if d.value.tmod 2 = 0 then ⟨t.even + d.value, t.odd⟩
        else ⟨t.even, t.odd + d.value⟩)
      t0
      = ⟨t0.even + (even_values (ds.map Dice.value)).sum,
         t0.odd + (odd_values (ds.map Dice.value)).sum⟩ := by
  induction ds generalizing t0 with
  | nil => simp [even_values, odd_values]
  | cons d ds ih =>
    rw [List.foldl_cons]
    by_cases h : d.value.tmod 2 = 0
    · rw [if_pos h, ih]
      simp [even_values, odd_values, List.filter_cons, h, DiceRollTotal.mk.injEq]
      omega
    · rw [if_neg h, ih]
      simp [even_values, odd_values, List.filter_cons, h, DiceRollTotal.mk.injEq]
      omega

/-- `roll_dice`'s collection loop partitions the received values by parity. -/
lemma collect_rolls_eq (ds : List Dice) :
    collect_rolls ds
      = ⟨(even_values (ds.map Dice.value)).sum,
         (odd_values (ds.map Dice.value)).sum⟩ := by
  simpa using collect_rolls_foldl ds ⟨0, 0⟩

/-- The even and odd rolls of a round sum to the round's full total. -/
lemma even_odd_values_sum (vs : List Int) :
    (even_values vs).sum + (odd_values vs).sum = vs.sum := by
  induction vs with
  | nil => simp [even_values, odd_values]
  | cons v vs ih =>
    by_cases h : v.tmod 2 = 0 <;>
      simp [even_values, odd_values, List.filter_cons, h] at ih ⊢ <;> omega

/-- Every roll is classified into exactly one of the two buckets. -/
lemma even_odd_values_length (vs : List Int) :
    (even_values vs).length + (odd_values vs).length = vs.length := by
  induction vs with
  | nil => rfl
  | cons v vs ih =>
    by_cases h : v.tmod 2 = 0 <;>
      simp [even_values, odd_values, List.filter_cons, h] at ih ⊢ <;> omega

lemma tmod_one_two : (1 : Int).tmod 2 = 1 := by decide

lemma tmod_two_two : (2 : Int).tmod 2 = 0 := by decide

lemma even_values_const_one (L : List Nat) :
    even_values (L.map (fun _ => (1 : Int))) = [] := by
  induction L with
  | nil => rfl
  | cons a L ih =>
    rw [List.map_cons]
    unfold even_values at ih ⊢
    rw [List.filter_cons, if_neg (by decide)]
    exact ih

lemma odd_values_const_one (L : List Nat) :
    (odd_values (L.map (fun _ => (1 : Int)))).sum = (L.length : Int) := by
  induction L with
  | nil => rfl
  | cons a L ih =>
    rw [List.map_cons]
    unfold odd_values at ih ⊢
    rw [List.filter_cons, if_pos (by decide), List.sum_cons, ih]
    simp
    omega

/-- A one-sided die always rolls `1`, so a one-sided round is all odd. -/
lemma roll_dice_one_side (n : Int) (e : Nat → Nat) (start : Nat) :
    roll_dice ⟨n, 1⟩ e start = ⟨0, (n.toNat : Int)⟩ := by
  unfold roll_dice
  rw [reduceOption_spawn ⟨n, 1⟩ (by norm_num) e start, collect_rolls_eq, List.map_map]
  have hmap : (Dice.value ∘ fun (r : Nat) => (⟨(r : Int) % 1 + 1⟩ : Dice))
      = fun _ => (1 : Int) := by
    funext r
    simp [Int.emod_one]
  rw [hmap, even_values_const_one, odd_values_const_one]
  simp [dieEntropy]

/-- Splitting a list of `1`s and `2`s by parity: the odd bucket holds `k`
ones and the even bucket `length - k` twos, for some `k`. -/
lemma one_two_partition (vs : List Int) (h : ∀ v ∈ vs, v = 1 ∨ v = 2) :
    ∃ k : Nat, k ≤ vs.length
      ∧ (odd_values vs).sum = (k : Int)
      ∧ (even_values vs).sum = 2 * ((vs.length : Int) - (k : Int)) := by
  induction vs with
  | nil => exact ⟨0, by simp, by simp [odd_values], by simp [even_values]⟩
  | cons v vs ih =>
    obtain ⟨k, hk, ho, he⟩ := ih (fun w hw => h w (List.mem_cons_of_mem v hw))
    rcases h v (List.mem_cons_self v vs) with rfl | rfl
    · refine ⟨k + 1, by simp; omega, ?_, ?_⟩
      · unfold odd_values at ho ⊢
        rw [List.filter_cons, if_pos (by decide), List.sum_cons, ho]
        push_cast
        ring
      · unfold even_values at he ⊢
        rw [List.filter_cons, if_neg (by decide), he]
        push_cast [List.length_cons]
        ring
    · refine ⟨k, by simp; omega, ?_, ?_⟩
      · unfold odd_values at ho ⊢
        rw [List.filter_cons, if_neg (by decide)]
        exact ho
      · unfold even_values at he ⊢
        rw [List.filter_cons, if_pos (by decide), List.sum_cons, he]
        push_cast [List.length_cons]
        ring

/-- A two-sided round: some `k ≤ dieCount` dice roll odd (value 1) and the
rest roll even (value 2). -/
lemma roll_dice_two_sides (n : Int) (e : Nat → Nat) (start : Nat) :
    ∃ k : Nat, k ≤ n.toNat ∧
      roll_dice ⟨n, 2⟩ e start
        = ⟨2 * ((n.toNat : Int) - (k : Int)), (k : Int)⟩ := by
  unfold roll_dice
  rw [reduceOption_spawn ⟨n, 2⟩ (by norm_num) e start, collect_rolls_eq, List.map_map]
  have hv : ∀ v ∈ (dieEntropy e start (Int.toNat n)).map
      (Dice.value ∘ fun (r : Nat) => (⟨(r : Int) % 2 + 1⟩ : Dice)), v = 1 ∨ v = 2 := by
    intro v hv
    simp only [List.mem_map, Function.comp] at hv
    obtain ⟨r, _, rfl⟩ := hv
    show (r : Int) % 2 + 1 = 1 ∨ (r : Int) % 2 + 1 = 2
    omega
  obtain ⟨k, hk, ho, he⟩ := one_two_partition _ hv
  have hlen : ((dieEntropy e start (Int.toNat n)).map
      (Dice.value ∘ fun (r : Nat) => (⟨(r : Int) % 2 + 1⟩ : Dice))).length = n.toNat := by
    simp [dieEntropy]
  rw [hlen] at hk he
  exact ⟨k, hk, by rw [ho, he]⟩

lemma i32_max_eq : i32_max = 2147483647 := rfl

/-! ## Claims -/

/-- C4: for every `sides ≥ 1`, a single die roll (`Dice::new`) produces an
integer value in the closed interval `[1, sides]`. -/
theorem dice_new_value_in_range (sides : Int) (r : Nat) (h : 1 ≤ sides) :
    ∃ d : Dice, Dice.new sides r = some d ∧ 1 ≤ d.value ∧ d.value ≤ sides :=
  ⟨⟨(r : Int) % sides + 1⟩, dice_new_eq h r,
    (dice_value_mem h r).1, (dice_value_mem h r).2⟩

/-- Witness for C4 at `sides = 6`, entropy draw `10`. -/
theorem dice_new_value_in_range_witness :
    (1 : Int) ≤ 6
    ∧ ∃ d : Dice, Dice.new 6 10 = some d ∧ 1 ≤ d.value ∧ d.value ≤ 6 :=
  ⟨by decide, dice_new_value_in_range 6 10 (by decide)⟩

/-- C10: for every `sides < 1`, `Dice::new` fails fast — the random draw
over the empty range `0..sides` panics (modelled as `none`) — rather than
behaving like `sides = 1`. -/
theorem dice_new_fails_fast_empty_range (sides : Int) (r : Nat) (h : sides < 1) :
    Dice.new sides r = none ∧ Dice.new sides r ≠ Dice.new 1 r := by
  have hnone : Dice.new sides r = none := by
    simp only [Dice.new, gen_range_zero_to]
    rw [if_pos (by omega)]
    rfl
  refine ⟨hnone, ?_⟩
  rw [hnone, dice_new_eq (by norm_num) r]
  simp

/-- Witness for C10 at `sides = 0`, entropy draw `3`. -/
theorem dice_new_fails_fast_empty_range_witness :
    (0 : Int) < 1
    ∧ (Dice.new 0 3 = none ∧ Dice.new 0 3 ≠ Dice.new 1 3) :=
  ⟨by decide, dice_new_fails_fast_empty_range 0 3 (by decide)⟩

/-- C3: for every hand with `dieCount ≥ 0` and `sideCount ≥ 1` and every
sequence of rolled die values, `roll_dice` classifies each value into
exactly one of `evenSum`/`oddSum` according to its parity, and
`evenSum + oddSum` equals the sum of all rolled values. -/
theorem roll_dice_parity_partition (hand : DiceHand) (e : Nat → Nat) (start : Nat)
    (h1 : 0 ≤ hand.number_of_dice) (h2 : 1 ≤ hand.number_of_sides) :
    roll_dice hand e start
      = ⟨(even_values (die_values hand e start)).sum,
         (odd_values (die_values hand e start)).sum⟩
    ∧ (even_values (die_values hand e start)).length
        + (odd_values (die_values hand e start)).length
        = (die_values hand e start).length
    ∧ (roll_dice hand e start).even + (roll_dice hand e start).odd
        = (die_values hand e start).sum := by
  have hroll : roll_dice hand e start
      = ⟨(even_values (die_values hand e start)).sum,
         (odd_values (die_values hand e start)).sum⟩ := by
    unfold roll_dice die_values
    rw [collect_rolls_eq]
  refine ⟨hroll, even_odd_values_length _, ?_⟩
  rw [hroll]
  exact even_odd_values_sum _

/-- Witness for C3 at a hand of 3 six-sided dice, entropy stream `id`. -/
theorem roll_dice_parity_partition_witness :
    (0 : Int) ≤ (⟨3, 6⟩ : DiceHand).number_of_dice
    ∧ (1 : Int) ≤ (⟨3, 6⟩ : DiceHand).number_of_sides
    ∧ (roll_dice ⟨3, 6⟩ (fun i => i) 0
        = ⟨(even_values (die_values ⟨3, 6⟩ (fun i => i) 0)).sum,
           (odd_values (die_values ⟨3, 6⟩ (fun i => i) 0)).sum⟩
      ∧ (even_values (die_values ⟨3, 6⟩ (fun i => i) 0)).length
          + (odd_values (die_values ⟨3, 6⟩ (fun i => i) 0)).length
          = (die_values ⟨3, 6⟩ (fun i => i) 0).length
      ∧ (roll_dice ⟨3, 6⟩ (fun i => i) 0).even + (roll_dice ⟨3, 6⟩ (fun i => i) 0).odd
          = (die_values ⟨3, 6⟩ (fun i => i) 0).sum) :=
  ⟨by decide, by decide,
    roll_dice_parity_partition ⟨3, 6⟩ (fun i => i) 0 (by decide) (by decide)⟩

/-- C6: for every `dieCount ≥ 0`, rolling a hand with `sideCount = 1`
yields value `1` on every die, so `roll_dice` returns
`evenSum = 0` and `oddSum = dieCount`. -/
theorem roll_dice_single_side (hand : DiceHand) (e : Nat → Nat) (start : Nat)
    (h1 : hand.number_of_sides = 1) (h2 : 0 ≤ hand.number_of_dice) :
    roll_dice hand e start = ⟨0, hand.number_of_dice⟩ := by
  obtain ⟨nd, ns⟩ := hand
  simp only at h1 h2
  subst h1
  rw [roll_dice_one_side nd e start]
  rw [Int.toNat_of_nonneg h2]

/-- Witness for C6 at a hand of 5 one-sided dice. -/
theorem roll_dice_single_side_witness :
    (⟨5, 1⟩ : DiceHand).number_of_sides = 1
    ∧ (0 : Int) ≤ (⟨5, 1⟩ : DiceHand).number_of_dice
    ∧ roll_dice ⟨5, 1⟩ (fun i => i) 0 = ⟨0, 5⟩ :=
  ⟨by decide, by decide, roll_dice_single_side ⟨5, 1⟩ (fun i => i) 0 (by decide) (by decide)⟩

/-- C7: for every `sideCount ≥ 1`, calling the round resolver with
`dieCount = 0` spawns no roll task and returns `RoundTotals{0,0}`. -/
theorem roll_dice_zero_dice (hand : DiceHand) (e : Nat → Nat) (start : Nat)
    (h1 : hand.number_of_dice = 0) (h2 : 1 ≤ hand.number_of_sides) :
    spawn_die hand e start = [] ∧ roll_dice hand e start = ⟨0, 0⟩ := by
  constructor
  · simp [spawn_die, dieEntropy, h1]
  · simp [roll_dice, spawn_die, dieEntropy, h1]
    rfl

/-- Witness for C7 at a hand of 0 six-sided dice. -/
theorem roll_dice_zero_dice_witness :
    (⟨0, 6⟩ : DiceHand).number_of_dice = 0
    ∧ (1 : Int) ≤ (⟨0, 6⟩ : DiceHand).number_of_sides
    ∧ (spawn_die ⟨0, 6⟩ (fun i => i) 0 = [] ∧ roll_dice ⟨0, 6⟩ (fun i => i) 0 = ⟨0, 0⟩) :=
  ⟨by decide, by decide, roll_dice_zero_dice ⟨0, 6⟩ (fun i => i) 0 (by decide) (by decide)⟩

/-- The score returned by the game loop is the accumulator plus the summed
contributions of the rounds still to be resolved. -/
lemma game_loop_aux_score_eq (sides : Int) (e : Nat → Nat) :
    ∀ (fuel : Nat) (n : Int) (start : Nat) (acc s : Int),
      game_loop_aux sides e fuel n start acc = .score s →
      s = acc + ((game_rounds_aux sides e fuel n start).map DiceRollTotal.sum).sum := by
  intro fuel
  induction fuel with
  | zero =>
    intro n start acc s h
    simp [game_loop_aux] at h
  | succ fuel ih =>
    intro n start acc s h
    simp only [game_loop_aux] at h
    simp only [game_rounds_aux]
    by_cases h0 : next_hand_value (roll_dice ⟨n, sides⟩ e start) = 0
    · rw [if_pos h0] at h ⊢
      cases h
      simp
    · rw [if_neg h0] at h ⊢
      have := ih _ _ _ _ h
      rw [List.map_cons, List.sum_cons]
      omega

/-- C1: for every game run from a starting hand with `dieCount > 0` and
`sideCount ≥ 1` and every sequence of die values, the integer returned by
`game_loop` equals the sum over all resolved rounds of that round's
`evenSum + oddSum`: no round's contribution is double-counted or dropped. -/
theorem game_loop_score_eq_sum_of_rounds (hand : DiceHand) (e : Nat → Nat)
    (fuel : Nat) (s : Int) (h1 : 0 < hand.number_of_dice)
    (h2 : 1 ≤ hand.number_of_sides)
    (h : game_loop hand e fuel = .score s) :
    s = ((game_rounds hand e fuel).map DiceRollTotal.sum).sum := by
  have hs := game_loop_aux_score_eq hand.number_of_sides e fuel
    hand.number_of_dice 0 0 s (by simpa [game_loop] using h)
  simpa [game_rounds] using hs

/-- Witness for C1: 6 two-sided dice, all rolling even, end after one
round with score 12. -/
theorem game_loop_score_eq_sum_of_rounds_witness :
    (0 : Int) < 6 ∧ (1 : Int) ≤ 2
    ∧ (12 : Int) = ((game_rounds ⟨6, 2⟩ (fun _ => 1) 1).map DiceRollTotal.sum).sum :=
  ⟨by decide, by decide,
    game_loop_score_eq_sum_of_rounds ⟨6, 2⟩ (fun _ => 1) 1 12
      (by decide) (by decide) (by decide)⟩

/-- C2 (amended): the evaluation step computes the next hand size as
`max(0, oddSum - evenSum)` additionally clamped above at `i32::MAX`
(`2147483647`, from the `clamp(0, i32::MAX as i64) as i32` cast); a
clamped value of `0` ends the game at this round's score, and any positive
clamped value becomes the exact next `dieCount` resolved. -/
theorem eval_next_hand_clamped (sides : Int) (e : Nat → Nat) (fuel : Nat)
    (n : Int) (start : Nat) (acc : Int) (t : DiceRollTotal)
    (h : roll_dice ⟨n, sides⟩ e start = t) :
    next_hand_value t = min (max (t.odd - t.even) 0) 2147483647
    ∧ (next_hand_value t = 0 →
        game_loop_aux sides e (fuel + 1) n start acc = .score (acc + t.sum))
    ∧ (next_hand_value t ≠ 0 →
        game_loop_aux sides e (fuel + 1) n start acc
          = game_loop_aux sides e fuel (next_hand_value t) (start + n.toNat)
              (acc + t.sum)) := by
  subst h
  refine ⟨rfl, ?_, ?_⟩
  · intro h0
    simp only [game_loop_aux]
    rw [if_pos h0]
  · intro h0
    simp only [game_loop_aux]
    rw [if_neg h0]

/-- Witness for C2's amended theorem: the all-even first round of 6
two-sided dice ends the game with score 12. -/
theorem eval_next_hand_clamped_witness :
    roll_dice ⟨6, 2⟩ (fun _ => 1) 0 = ⟨12, 0⟩
    ∧ game_loop_aux 2 (fun _ => 1) 1 6 0 0 = .score 12 := by
  have h : roll_dice ⟨6, 2⟩ (fun _ => 1) 0 = ⟨12, 0⟩ := by decide
  refine ⟨h, ?_⟩
  have hc := (eval_next_hand_clamped 2 (fun _ => 1) 0 6 0 0 ⟨12, 0⟩ h).2.1 (by decide)
  simpa [DiceRollTotal.sum] using hc

/-- Counterexample to C2 as stated: at `RoundTotals{evenSum 0, oddSum 2^31}`
the code requests `i32::MAX = 2147483647` dice, not
`max(0, oddSum - evenSum) = 2147483648`. -/
theorem next_hand_value_cex :
    next_hand_value ⟨0, 2147483648⟩ = 2147483647
    ∧ max 0 ((⟨0, 2147483648⟩ : DiceRollTotal).odd
        - (⟨0, 2147483648⟩ : DiceRollTotal).even) = 2147483648
    ∧ (2147483647 : Int) ≠ 2147483648 := by
  refine ⟨?_, by decide, by decide⟩
  rw [show next_hand_value ⟨0, 2147483648⟩
      = min (max ((2147483648 : Int) - 0) 0) i32_max from rfl, i32_max_eq]
  decide

/-- The `game_actions` trace has exactly one entry per resolved round, in
round order: the sends of round N all precede those of round N+1. -/
lemma game_actions_eq_map (sides : Int) (e : Nat → Nat) :
    ∀ (fuel : Nat) (n : Int) (start : Nat),
      game_actions_aux sides e fuel n start
        = (game_rounds_aux sides e fuel n start).map round_actions := by
  intro fuel
  induction fuel with
  | zero =>
    intro n start
    rfl
  | succ fuel ih =>
    intro n start
    simp only [game_actions_aux, game_rounds_aux]
    by_cases h0 : next_hand_value (roll_dice ⟨n, sides⟩ e start) = 0
    · rw [if_pos h0, if_pos h0]
      rfl
    · rw [if_neg h0, if_neg h0, List.map_cons, ih]

/-- C5: each resolved round emits exactly one `ScoreDelta` (`Score`)
update, that update is the round's first send (so it strictly precedes the
round's narration), any next-hand request is the round's last send (so it
follows both updates, and round N+1's resolution starts only after round
N's updates), and the whole trace is the per-round action lists in round
order. -/
theorem round_update_ordering (sides : Int) (e : Nat → Nat) (fuel : Nat)
    (n : Int) (start : Nat) :
    game_actions_aux sides e fuel n start
      = (game_rounds_aux sides e fuel n start).map round_actions
    ∧ ∀ t : DiceRollTotal,
        (round_actions t).countP is_score_update = 1
        ∧ (round_actions t).head? = some (.update (.Score t.sum))
        ∧ ∀ (i : Nat) (m : Int), (round_actions t)[i]? = some (.requestHand m) →
            m = next_hand_value t ∧ i + 1 = (round_actions t).length := by
  refine ⟨game_actions_eq_map sides e fuel n start, ?_⟩
  intro t
  by_cases h0 : next_hand_value t = 0
  · refine ⟨?_, ?_, ?_⟩
    · simp [round_actions, h0, List.countP_cons, is_score_update]
    · simp [round_actions, h0]
    · intro i m him
      rcases i with _ | _ | _ | i <;> simp [round_actions, h0] at him
  · refine ⟨?_, ?_, ?_⟩
    · simp [round_actions, h0, List.countP_cons, is_score_update]
    · simp [round_actions, h0]
    · intro i m him
      rcases i with _ | _ | _ | _ | i <;> simp [round_actions, h0] at him ⊢
      exact him.symm

/-- With valid side and die counts, `next_hand_value` of a one-sided round
is the full die count. -/
lemma next_hand_value_one_side {n : Int} (h1 : 1 ≤ n) (h2 : n ≤ i32_max)
    (e : Nat → Nat) (start : Nat) :
    next_hand_value (roll_dice ⟨n, 1⟩ e start) = n := by
  rw [roll_dice_one_side, Int.toNat_of_nonneg (by omega)]
  show min (max (n - 0) 0) i32_max = n
  rw [i32_max_eq] at h2 ⊢
  omega

/-- From a one-sided hand of `n ≥ 1` dice, the game loop is still running
after any number of rounds. -/
lemma game_loop_aux_one_side_running (e : Nat → Nat) {n : Int}
    (h1 : 1 ≤ n) (h2 : n ≤ i32_max) :
    ∀ (fuel start : Nat) (acc : Int),
      (game_loop_aux 1 e fuel n start acc).isRunning = true := by
  intro fuel
  induction fuel with
  | zero =>
    intro start acc
    rfl
  | succ fuel ih =>
    intro start acc
    simp only [game_loop_aux]
    rw [next_hand_value_one_side h1 h2 e start]
    rw [if_neg (by omega)]
    exact ih _ _

/-- C9: for every starting hand with `sideCount = 1` and
`1 ≤ dieCount ≤ i32::MAX`, every round's parity difference equals the die
count, the requested next hand always equals the current one, and
`game_loop` never returns: it is still running after any amount of fuel. -/
theorem game_single_side_never_returns (hand : DiceHand) (e : Nat → Nat) (fuel : Nat)
    (h1 : hand.number_of_sides = 1) (h2 : 1 ≤ hand.number_of_dice)
    (h3 : hand.number_of_dice ≤ i32_max) :
    (∀ start : Nat,
        (roll_dice ⟨hand.number_of_dice, 1⟩ e start).parity_difference
            = hand.number_of_dice
        ∧ next_hand_value (roll_dice ⟨hand.number_of_dice, 1⟩ e start)
            = hand.number_of_dice)
    ∧ (game_loop hand e fuel).isRunning = true := by
  constructor
  · intro start
    constructor
    · rw [roll_dice_one_side, Int.toNat_of_nonneg (by omega)]
      show hand.number_of_dice - 0 = hand.number_of_dice
      ring
    · exact next_hand_value_one_side h2 h3 e start
  · unfold game_loop
    rw [h1]
    exact game_loop_aux_one_side_running e h2 h3 fuel 0 0

/-- Witness for C9 at a hand of one 1-sided die, 2 rounds of fuel. -/
theorem game_single_side_never_returns_witness :
    (⟨1, 1⟩ : DiceHand).number_of_sides = 1
    ∧ (1 : Int) ≤ (⟨1, 1⟩ : DiceHand).number_of_dice
    ∧ (⟨1, 1⟩ : DiceHand).number_of_dice ≤ i32_max
    ∧ (game_loop ⟨1, 1⟩ (fun _ => 0) 2).isRunning = true :=
  ⟨by decide, by decide, by decide,
    (game_single_side_never_returns ⟨1, 1⟩ (fun _ => 0) 2
      (by decide) (by decide) (by decide)).2⟩

/-- For two-sided hands the final score from `n` dice is at least
`⌈4n/3⌉ = (4n + 2) / 3`: a terminating round of `n` dice with `k` odd
rolls scores `2n - k` with `3k ≤ 2n`, and a continuing round scores
`2n - k` and hands `3k - 2n` dice to the next round. -/
lemma game_two_sides_bound (e : Nat → Nat) :
    ∀ (fuel : Nat) (n : Int) (start : Nat) (acc s : Int),
      1 ≤ n → n ≤ i32_max →
      game_loop_aux 2 e fuel n start acc = .score s →
      acc + (4 * n + 2) / 3 ≤ s := by
  intro fuel
  induction fuel with
  | zero =>
    intro n start acc s h1 h2 h
    simp [game_loop_aux] at h
  | succ fuel ih =>
    intro n start acc s h1 h2 h
    rw [i32_max_eq] at h2
    obtain ⟨k, hk, ht⟩ := roll_dice_two_sides n e start
    have hn : (n.toNat : Int) = n := Int.toNat_of_nonneg (by omega)
    rw [hn] at ht
    have hkn : (k : Int) ≤ n := by omega
    simp only [game_loop_aux] at h
    rw [ht] at h
    have hnext : next_hand_value ⟨2 * (n - (k : Int)), (k : Int)⟩
        = max ((k : Int) - 2 * (n - (k : Int))) 0 := by
      show min (max ((k : Int) - 2 * (n - (k : Int))) 0) i32_max = _
      rw [i32_max_eq]
      omega
    have hsum : (⟨2 * (n - (k : Int)), (k : Int)⟩ : DiceRollTotal).sum
        = (k : Int) + 2 * (n - (k : Int)) := rfl
    rw [hnext] at h
    by_cases h0 : max ((k : Int) - 2 * (n - (k : Int))) 0 = 0
    · rw [if_pos h0] at h
      cases h
      rw [hsum]
      omega
    · rw [if_neg h0] at h
      have hmpos : 1 ≤ max ((k : Int) - 2 * (n - (k : Int))) 0 := by omega
      have hmle : max ((k : Int) - 2 * (n - (k : Int))) 0 ≤ i32_max := by
        rw [i32_max_eq]
        omega
      have hrec := ih _ _ _ _ hmpos hmle h
      rw [hsum] at hrec
      omega

/-- C8 (amended): for every sequence of die values in `[1, 2]`, IF a game
started from 6 two-sided dice terminates, its final score is at least 8.
(Termination itself fails for the all-odd sequence; see the
counterexample.) -/
theorem game_six_dice_min_score (e : Nat → Nat) (fuel : Nat) (s : Int)
    (h : game_loop ⟨6, 2⟩ e fuel = .score s) : 8 ≤ s := by
  have hb := game_two_sides_bound e fuel 6 0 0 s (by norm_num)
    (by rw [i32_max_eq]; norm_num) (by simpa [game_loop] using h)
  omega

/-- Witness for C8's amended theorem: all-even rolls end after one round
with score 12 ≥ 8. -/
theorem game_six_dice_min_score_witness :
    game_loop ⟨6, 2⟩ (fun _ => 1) 1 = .score 12 ∧ (8 : Int) ≤ 12 :=
  ⟨by decide, game_six_dice_min_score (fun _ => 1) 1 12 (by decide)⟩

/-- Under the all-odd entropy stream every two-sided die rolls `1`. -/
lemma roll_dice_six_two_zero_entropy (start : Nat) :
    roll_dice ⟨6, 2⟩ (fun _ => 0) start = ⟨0, 6⟩ := rfl

/-- Under the all-odd entropy stream the 6-dice two-sided game loops
forever: every round rolls six `1`s and requests six dice again. -/
lemma game_six_two_zero_entropy_running :
    ∀ (fuel start : Nat) (acc : Int),
      (game_loop_aux 2 (fun _ => 0) fuel 6 start acc).isRunning = true := by
  intro fuel
  induction fuel with
  | zero =>
    intro start acc
    rfl
  | succ fuel ih =>
    intro start acc
    simp only [game_loop_aux]
    rw [roll_dice_six_two_zero_entropy start]
    rw [if_neg (by decide)]
    exact ih _ _

/-- Counterexample to C8 as stated: under the all-odd sequence of die
values (every die rolls `1`) the game from 6 two-sided dice never
terminates, so it does not terminate with a score of at least 8. -/
theorem game_six_dice_nontermination_cex :
    ¬ terminates_with_at_least ⟨6, 2⟩ (fun _ => 0) 8 := by
  rintro ⟨fuel, s, h, -⟩
  have hr := game_six_two_zero_entropy_running fuel 0 0
  have haux : game_loop_aux 2 (fun _ => 0) fuel 6 0 0 = .score s := by
    simpa [game_loop] using h
  rw [haux] at hr
  simp [GameOutcome.isRunning] at hr

end DiceRoulette
